import Mathlib

set_option linter.unusedVariables false

/-!
Verification of the coordinator task queue and registry lookups of the
godiscord repository.

The definitions below are a shallow embedding of
`coordinator/tasks/queue.py` and `coordinator/registries/agent_registry.py`:

* a Python dict with string keys is an association list in insertion order
  with distinct keys; `d[k]`, `d[k] = v` and `d.update(kw)` become
  `dictGet`, `dictSet` and `dictUpdate`;
* every value the queue stores in a task record is a string or `None`
  (JSON null), captured by `JVal`;
* the persisted document `tasks.json` holds a single list of task records
  (`Doc`); the backing file is `QueueFile` (`none` = file does not exist),
  with JSON text (de)serialization delegated to the `json` stdlib and
  modelled as faithful, so the file holds the parsed document;
* `uuid.uuid4().hex` and `datetime.now().isoformat()` are external inputs
  and appear as explicit parameters (`AddReq.hex`, `AddReq.now`);
* Python raises `KeyError` when a subscripted key is missing; the embedding
  uses the total `dictGet` and the theorems about whole documents restrict
  to well-formed documents (`WFDoc`), where the two agree.
-/

namespace Coordinator

/-- A JSON value stored in a task record: the queue writes only strings and
explicit nulls (Python `None`). -/
inductive JVal where
  | s : String → JVal
  | null : JVal
deriving DecidableEq, Repr

/-- A Python dict with string keys: association list in insertion order. -/
abbrev Dict := List (String × JVal)

/-- `d[k]` as a total lookup: `some v` when the key is present. -/
def dictGet : Dict → String → Option JVal
  | [], _ => none
  | (k, v) :: rest, key => if k = key then some v else dictGet rest key

/-- `d[k] = v`: replace the value in place when the key exists (Python keeps
the key at its original position), append otherwise. -/
def dictSet : Dict → String → JVal → Dict
  | [], key, v => [(key, v)]
  | (k, w) :: rest, key, v =>
      if k = key then (k, v) :: rest else (k, w) :: dictSet rest key v

/-- `d.update(kw)`: set every key/value pair of `kw`, in order. -/
def dictUpdate (d : Dict) (kw : Dict) : Dict :=
  kw.foldl (fun acc p => dictSet acc p.1 p.2) d

/-- The keys of a dict, in insertion order. -/
def dictKeys (d : Dict) : List String := d.map Prod.fst

/-- The `TaskStatus` enum of queue.py. -/
inductive TaskStatus where
  | queued
  | in_progress
  | completed
  | failed
  | cancelled
deriving DecidableEq, Repr

/-- `TaskStatus.value`: the string payload of each enum member. -/
def TaskStatus.value : TaskStatus → String
  | .queued => "queued"
  | .in_progress => "in_progress"
  | .completed => "completed"
  | .failed => "failed"
  | .cancelled => "cancelled"

/-- A task record is a dict. -/
abbrev Task := Dict

/-- The persisted document is its list `data["tasks"]` of task records. -/
abbrev Doc := List Task

/-- Python slice `s[:8]`, on the characters of the string. -/
def pyTake8 (s : String) : String := String.mk (s.data.take 8)

/-- The id built by `add_task`, line 43 of queue.py:
`f"task-{uuid.uuid4().hex[:8]}"`, with the random `uuid4().hex` string an
explicit parameter. -/
def genTaskId (hex : String) : String := "task-" ++ pyTake8 hex

/-- The arguments of one `add_task` call together with the two external
values the call samples: the uuid hex string and `datetime.now().isoformat()`. -/
structure AddReq where
  hex : String
  agent_id : String
  model : String
  task_description : String
  requested_by : String
  now : String
deriving DecidableEq, Repr

/-- The record literal built by `add_task` (queue.py lines 44-56), fields in
source order. `started_at`, `completed_at`, `result` and `error` are written
as explicit nulls (`None`), not omitted. -/
def mkTask (r : AddReq) : Task :=
  [ ("id", JVal.s (genTaskId r.hex)),
    ("agent", JVal.s r.agent_id),
    ("model", JVal.s r.model),
    ("task", JVal.s r.task_description),
    ("status", JVal.s TaskStatus.queued.value),
    ("requested_by", JVal.s r.requested_by),
    ("created_at", JVal.s r.now),
    ("started_at", JVal.null),
    ("completed_at", JVal.null),
    ("result", JVal.null),
    ("error", JVal.null) ]

namespace TaskQueue

/-- `add_task`: append the new record to the loaded document and save;
the caller receives `genTaskId r.hex`. -/
def add_task (d : Doc) (r : AddReq) : Doc := d ++ [mkTask r]

/-- `get_task`: linear scan for the first record whose `id` field equals the
requested id; `none` when no record matches. -/
def get_task : Doc → String → Option Task
  | [], _ => none
  | t :: ts, tid =>
      if dictGet t "id" = some (JVal.s tid) then some t else get_task ts tid

/-- The record produced from `t` by one matching update:
`task["status"] = status.value` followed by `task.update(kwargs)`. -/
def applyUpdate (st : TaskStatus) (kw : Dict) (t : Task) : Task :=
  dictUpdate (dictSet t "status" (JVal.s st.value)) kw

/-- `update_task_status`: on the first record whose id matches, overwrite the
status field and merge the keyword arguments, then stop (the loop breaks);
the document is saved back whether or not a record matched. -/
def update_task_status : Doc → String → TaskStatus → Dict → Doc
  | [], _, _, _ => []
  | t :: ts, tid, st, kw =>
      if dictGet t "id" = some (JVal.s tid)
      then applyUpdate st kw t :: ts
      else t :: update_task_status ts tid st kw

/-- `get_next_queued_task`: first record in document order whose status field
equals `TaskStatus.QUEUED.value`; the record is returned as stored, nothing
is written. -/
def get_next_queued_task : Doc → Option Task
  | [] => none
  | t :: ts =>
      if dictGet t "status" = some (JVal.s TaskStatus.queued.value)
      then some t
      else get_next_queued_task ts

/-- The sort key of `list_tasks`: `t["created_at"]`. On a well-formed stored
document the field is always a string; on a record without it Python would
raise, here it maps to `""` (the theorems assume `WFDoc`). -/
def createdAtKey (t : Task) : String :=
  match dictGet t "created_at" with
  | some (JVal.s v) => v
  | _ => ""

/-- Lexicographic comparison of two character sequences by code point: the
order Python applies when comparing strings. -/
def charListLt : List Char → List Char → Bool
  | [], [] => false
  | [], _ :: _ => true
  | _ :: _, [] => false
  | a :: as, b :: bs =>
      if a.toNat < b.toNat then true
      else if b.toNat < a.toNat then false
      else charListLt as bs

/-- Python string comparison `a < b`. -/
def pyLt (a b : String) : Bool := charListLt a.data b.data

/-- Insert `a` into a list sorted by `key` descending, placing it after every
element whose key is greater than or equal: one step of the stable descending
order produced by Python `list.sort(key=..., reverse=True)`. -/
def insertDesc {α : Type} (key : α → String) (a : α) : List α → List α
  | [] => [a]
  | b :: bs =>
      if pyLt (key b) (key a) then a :: b :: bs else b :: insertDesc key a bs

/-- Stable sort, descending in `key`: the unique reordering that is sorted
descending and keeps equal-key elements in their original relative order,
which is what Python `list.sort(key=..., reverse=True)` produces. -/
def sortDesc {α : Type} (key : α → String) (l : List α) : List α :=
  l.foldl (fun acc a => insertDesc key a acc) []

/-- The filter predicate of `list_tasks`: `t["status"] == status.value`. -/
def statusMatches (st : TaskStatus) (t : Task) : Bool :=
  decide (dictGet t "status" = some (JVal.s st.value))

/-- `list_tasks`: optionally filter by exact status value (`if status:` is
true exactly when a status was passed, enum members being truthy), sort by
`created_at` descending — a lexicographic string comparison — and truncate
to `limit` (the source declares `limit` with default 10). -/
def list_tasks (d : Doc) (status : Option TaskStatus) (limit : Nat) : List Task :=
  match status with
  | some st => (sortDesc createdAtKey (d.filter (statusMatches st))).take limit
  | none => (sortDesc createdAtKey d).take limit

/-- The filter a `list_tasks` call applies: exact status match, or everything
when no status was passed. -/
def matchB : Option TaskStatus → Task → Bool
  | some st, t => statusMatches st t
  | none, _ => true

end TaskQueue

/-- One call to the queue API, with the external inputs it consumes. -/
inductive QueueOp where
  | addT : AddReq → QueueOp
  | updT : String → TaskStatus → Dict → QueueOp
  | getT : String → QueueOp
  | nextT : QueueOp
  | listT : Option TaskStatus → Nat → QueueOp

/-- The persisted document after one operation: `add_task` and
`update_task_status` end in `_save_queue`; `get_task`,
`get_next_queued_task` and `list_tasks` only call `_load_queue` and never
write (`list_tasks` sorts only its in-memory copy of the parsed document,
which is then discarded). -/
def persistAfter : QueueOp → Doc → Doc
  | .addT r, d => TaskQueue.add_task d r
  | .updT tid st kw, d => TaskQueue.update_task_status d tid st kw
  | .getT _, d => d
  | .nextT, d => d
  | .listT _ _, d => d

/-- The id fields of the document, in stored order. -/
def docIds (d : Doc) : List (Option JVal) := d.map (fun t => dictGet t "id")

/-- The ids an operation appends to the document. -/
def newIds : QueueOp → List (Option JVal)
  | .addT r => [some (JVal.s (genTaskId r.hex))]
  | _ => []

/-- Side conditions under which a step keeps stored ids intact: the
uuid-derived id of an `add_task` does not collide with a stored id (the code
relies on uuid4 randomness for this and performs no check), and
`update_task_status` is not passed a keyword argument named `id` (the code
merges arbitrary keyword fields into the record; every documented extra
field is started_at/completed_at/result/error). -/
def FreshOk : QueueOp → Doc → Prop
  | .addT r, d => some (JVal.s (genTaskId r.hex)) ∉ docIds d
  | .updT _ _ kw, _ => "id" ∉ dictKeys kw
  | .getT _, _ => True
  | .nextT, _ => True
  | .listT _ _, _ => True

/-- Documents reachable from the initial empty store (`_ensure_queue_file`
writes `{"tasks": []}` on first construction) by operations satisfying
`FreshOk`. -/
inductive SafeReach : Doc → Prop where
  | init : SafeReach []
  | step (op : QueueOp) (d : Doc) :
      SafeReach d → FreshOk op d → SafeReach (persistAfter op d)

/-- The backing file `tasks.json`: `none` when it does not exist, otherwise
the parsed document it holds. -/
abbrev QueueFile := Option Doc

/-- `_save_queue`: rewrite the whole file with the document. -/
def save_queue (d : Doc) (_fs : QueueFile) : QueueFile := some d

/-- `_load_queue`: parse and return the stored document. -/
def load_queue (fs : QueueFile) : Option Doc := fs

/-- `_ensure_queue_file`, run by `TaskQueue.__init__`: write the empty
document only when the file does not exist; an existing file is untouched. -/
def ensure_queue_file : QueueFile → QueueFile
  | none => some []
  | some d => some d

/-- A sequence of `add_task` calls against the document, in call order. -/
def run_adds : Doc → List AddReq → Doc
  | d, [] => d
  | d, r :: rest => run_adds (TaskQueue.add_task d r) rest

/-- The value under a key is a string. -/
def isStrVal : Option JVal → Bool
  | some (JVal.s _) => true
  | _ => false

/-- A stored task record always carries string-valued `id`, `status` and
`created_at` fields: `add_task` writes all three and Python raises on the
queue's subscript lookups otherwise. -/
def WFTask (t : Task) : Bool :=
  isStrVal (dictGet t "id") && isStrVal (dictGet t "status")
    && isStrVal (dictGet t "created_at")

/-- Every task of the document is well formed. -/
def WFDoc (d : Doc) : Bool := d.all WFTask

/-- Generic first-match lookup in an association list: Python dict indexing
for the yaml-loaded registries, whose keys are distinct. -/
def assocGet {α : Type} : List (String × α) → String → Option α
  | [], _ => none
  | (k, v) :: rest, key => if k = key then some v else assocGet rest key

/-- Python `sep.join(items)`. -/
def pyJoin (sep : String) : List String → String
  | [] => ""
  | [x] => x
  | x :: y :: rest => x ++ sep ++ pyJoin sep (y :: rest)

/-- The single-quote character, written by code point. -/
def sq : String := String.singleton (Char.ofNat 39)

/-- The separator of the bullet list in the registry error messages. -/
def bulletSep : String := "\n  • "

/-- `get_agent` (agent_registry.py lines 21-29), over an arbitrary loaded
registry: membership test on the keys, then dict lookup, or a ValueError
whose message lists every available agent id. -/
def get_agent {α : Type} (agents : List (String × α)) (agent_id : String) :
    Except String α :=
  match assocGet agents agent_id with
  | some v => Except.ok v
  | none => Except.error
      ("Agent " ++ sq ++ agent_id ++ sq ++ " not found\n\nAvailable agents:\n  • "
        ++ pyJoin bulletSep (agents.map Prod.fst))

/-- `get_model` (agent_registry.py lines 32-40): the analogous lookup over
the model registry. -/
def get_model {α : Type} (models : List (String × α)) (model_id : String) :
    Except String α :=
  match assocGet models model_id with
  | some v => Except.ok v
  | none => Except.error
      ("Model " ++ sq ++ model_id ++ sq ++ " not found\n\nAvailable models:\n  • "
        ++ pyJoin bulletSep (models.map Prod.fst))

/-- `needle` occurs contiguously inside `hay`. -/
def containsSub (needle hay : List Char) : Prop :=
  ∃ a b : List Char, hay = a ++ (needle ++ b)

/-- A concrete `add_task` argument vector used by witnesses and
counterexamples; its uuid hex sample is `"aabbccdd"`, so the generated id is
`"task-aabbccdd"`. -/
def exReq : AddReq :=
  ⟨"aabbccdd", "coder", "claude-sonnet", "fix bug 42", "alice",
    "2024-01-01T00:00:00"⟩

/-- A second concrete argument vector, with a distinct uuid hex sample. -/
def exReq2 : AddReq :=
  ⟨"11223344", "reviewer", "claude-haiku", "review pr 7", "bob",
    "2024-01-02T00:00:00"⟩

/-- A concrete two-task document used by witnesses. -/
def exDoc : Doc := [mkTask exReq, mkTask exReq2]

/-- A concrete 32-character lowercase-hex string, of the shape
`uuid.uuid4().hex` returns. -/
def hexEx : String := "0123456789abcdef0123456789abcdef"

open TaskQueue

theorem dictGet_dictSet_self (d : Dict) (k : String) (v : JVal) :
    dictGet (dictSet d k v) k = some v := by
  induction d with
  | nil => simp [dictSet, dictGet]
  | cons p rest ih =>
      obtain ⟨pk, pv⟩ := p
      by_cases h : pk = k
      · simp [dictSet, h, dictGet]
      · simp [dictSet, h, dictGet, ih]

theorem dictGet_dictSet_ne (d : Dict) (k k' : String) (v : JVal) (h : k' ≠ k) :
    dictGet (dictSet d k v) k' = dictGet d k' := by
  induction d with
  | nil => simp [dictSet, dictGet, Ne.symm h]
  | cons p rest ih =>
      obtain ⟨pk, pv⟩ := p
      by_cases hpk : pk = k
      · subst hpk
        simp [dictSet, dictGet, Ne.symm h]
      · by_cases hpk' : pk = k'
        · simp [dictSet, dictGet, hpk, hpk', h]
        · simp [dictSet, dictGet, hpk, hpk', ih]

theorem dictUpdate_cons (d : Dict) (p : String × JVal) (kw : Dict) :
    dictUpdate d (p :: kw) = dictUpdate (dictSet d p.1 p.2) kw := rfl

theorem dictGet_dictUpdate_notMem (d : Dict) (kw : Dict) (k : String)
    (h : k ∉ dictKeys kw) : dictGet (dictUpdate d kw) k = dictGet d k := by
  induction kw generalizing d with
  | nil => rfl
  | cons p rest ih =>
      have hk : k ≠ p.1 ∧ k ∉ dictKeys rest := by
        simpa [dictKeys, not_or] using h
      rw [dictUpdate_cons, ih _ hk.2, dictGet_dictSet_ne _ _ _ _ hk.1]

theorem dictGet_dictUpdate_mem (d : Dict) (kw : Dict) (k : String) (v : JVal)
    (hn : (dictKeys kw).Nodup) (hm : (k, v) ∈ kw) :
    dictGet (dictUpdate d kw) k = some v := by
  induction kw generalizing d with
  | nil => cases hm
  | cons p rest ih =>
      have hn' : p.1 ∉ dictKeys rest ∧ (dictKeys rest).Nodup := by
        simpa [dictKeys, List.nodup_cons] using hn
      rw [dictUpdate_cons]
      rcases List.mem_cons.mp hm with heq | hmem
      · have hp1 : p.1 = k := by rw [← heq]
        have hnotin : k ∉ dictKeys rest := hp1 ▸ hn'.1
        rw [dictGet_dictUpdate_notMem _ _ _ hnotin, ← heq]
        exact dictGet_dictSet_self d (k, v).1 (k, v).2
      · exact ih _ hn'.2 hmem

theorem applyUpdate_frame (st : TaskStatus) (kw : Dict) (t : Task) (k : String)
    (hks : k ≠ "status") (hkw : k ∉ dictKeys kw) :
    dictGet (applyUpdate st kw t) k = dictGet t k := by
  rw [applyUpdate, dictGet_dictUpdate_notMem _ _ _ hkw,
    dictGet_dictSet_ne _ _ _ _ hks]

theorem applyUpdate_status (st : TaskStatus) (kw : Dict) (t : Task)
    (hkw : "status" ∉ dictKeys kw) :
    dictGet (applyUpdate st kw t) "status" = some (JVal.s st.value) := by
  rw [applyUpdate, dictGet_dictUpdate_notMem _ _ _ hkw, dictGet_dictSet_self]

theorem applyUpdate_merge (st : TaskStatus) (kw : Dict) (t : Task) (k : String)
    (v : JVal) (hn : (dictKeys kw).Nodup) (hm : (k, v) ∈ kw) :
    dictGet (applyUpdate st kw t) k = some v :=
  dictGet_dictUpdate_mem _ kw k v hn hm

theorem update_split (pre post : List Task) (t : Task) (tid : String)
    (st : TaskStatus) (kw : Dict)
    (hpre : ∀ u ∈ pre, dictGet u "id" ≠ some (JVal.s tid))
    (ht : dictGet t "id" = some (JVal.s tid)) :
    update_task_status (pre ++ t :: post) tid st kw
      = pre ++ applyUpdate st kw t :: post := by
  induction pre with
  | nil => simp [update_task_status, ht]
  | cons u pre' ih =>
      have hu : ¬ dictGet u "id" = some (JVal.s tid) :=
        hpre u (List.mem_cons_self u pre')
      simp [update_task_status, hu,
        ih (fun x hx => hpre x (List.mem_cons_of_mem u hx))]

theorem dictGet_mkTask_id (r : AddReq) :
    dictGet (mkTask r) "id" = some (JVal.s (genTaskId r.hex)) := rfl

theorem docIds_add (d : Doc) (r : AddReq) :
    docIds (add_task d r) = docIds d ++ [some (JVal.s (genTaskId r.hex))] := by
  simp [docIds, add_task, dictGet_mkTask_id]

theorem docIds_update (d : Doc) (tid : String) (st : TaskStatus) (kw : Dict)
    (h : "id" ∉ dictKeys kw) :
    docIds (update_task_status d tid st kw) = docIds d := by
  induction d with
  | nil => rfl
  | cons t ts ih =>
      by_cases hc : dictGet t "id" = some (JVal.s tid)
      · simp [update_task_status, hc, docIds,
          applyUpdate_frame st kw t "id" (by decide) h]
      · simpa [update_task_status, hc, docIds] using ih

theorem charListLt_asymm (as bs : List Char) (h : charListLt as bs = true) :
    charListLt bs as = false := by
  induction as generalizing bs with
  | nil =>
      cases bs with
      | nil => simp [charListLt] at h
      | cons b bs' => simp [charListLt]
  | cons a as' ih =>
      cases bs with
      | nil => simp [charListLt] at h
      | cons b bs' =>
          by_cases h1 : a.toNat < b.toNat
          · have h2 : ¬ b.toNat < a.toNat := Nat.lt_asymm h1
            simp [charListLt, h1, h2]
          · by_cases h2 : b.toNat < a.toNat
            · simp [charListLt, h1, h2] at h
            · simp [charListLt, h1, h2] at h ⊢
              exact ih bs' h

theorem charListLt_trans (as bs cs : List Char) (h1 : charListLt as bs = true)
    (h2 : charListLt bs cs = true) : charListLt as cs = true := by
  induction as generalizing bs cs with
  | nil =>
      cases bs with
      | nil => simp [charListLt] at h1
      | cons b bs' =>
          cases cs with
          | nil => simp [charListLt] at h2
          | cons c cs' => simp [charListLt]
  | cons a as' ih =>
      cases bs with
      | nil => simp [charListLt] at h1
      | cons b bs' =>
          cases cs with
          | nil => simp [charListLt] at h2
          | cons c cs' =>
              by_cases hab : a.toNat < b.toNat
              · by_cases hbc : b.toNat < c.toNat
                · have hac : a.toNat < c.toNat := Nat.lt_trans hab hbc
                  simp [charListLt, hac]
                · by_cases hcb : c.toNat < b.toNat
                  · simp [charListLt, hbc, hcb] at h2
                  · have hbc' : b.toNat = c.toNat :=
                      Nat.le_antisymm (Nat.le_of_not_lt hcb) (Nat.le_of_not_lt hbc)
                    have hac : a.toNat < c.toNat := hbc' ▸ hab
                    simp [charListLt, hac]
              · by_cases hba : b.toNat < a.toNat
                · simp [charListLt, hab, hba] at h1
                · have hab' : a.toNat = b.toNat :=
                    Nat.le_antisymm (Nat.le_of_not_lt hba) (Nat.le_of_not_lt hab)
                  simp [charListLt, hab, hba] at h1
                  by_cases hbc : b.toNat < c.toNat
                  · have hac : a.toNat < c.toNat := hab' ▸ hbc
                    simp [charListLt, hac]
                  · by_cases hcb : c.toNat < b.toNat
                    · simp [charListLt, hbc, hcb] at h2
                    · have hbc' : b.toNat = c.toNat :=
                        Nat.le_antisymm (Nat.le_of_not_lt hcb) (Nat.le_of_not_lt hbc)
                      simp [charListLt, hbc, hcb] at h2
                      have e : a.toNat = c.toNat := hab'.trans hbc'
                      simp [charListLt, e, Nat.lt_irrefl]
                      exact ih bs' cs' h1 h2

theorem pyLt_asymm (a b : String) (h : pyLt a b = true) : pyLt b a = false :=
  charListLt_asymm a.data b.data h

theorem pyLt_trans (a b c : String) (h1 : pyLt a b = true)
    (h2 : pyLt b c = true) : pyLt a c = true :=
  charListLt_trans a.data b.data c.data h1 h2

theorem mem_insertDesc {α : Type} (key : α → String) (a x : α) (l : List α)
    (h : x ∈ insertDesc key a l) : x = a ∨ x ∈ l := by
  induction l with
  | nil => simpa [insertDesc] using h
  | cons b bs ih =>
      simp only [insertDesc] at h
      by_cases hc : pyLt (key b) (key a) = true
      · rw [if_pos hc] at h
        simpa [List.mem_cons] using h
      · rw [if_neg hc] at h
        rcases List.mem_cons.mp h with rfl | h1
        · exact Or.inr (List.mem_cons_self _ bs)
        · rcases ih h1 with h2 | h2
          · exact Or.inl h2
          · exact Or.inr (List.mem_cons_of_mem b h2)

theorem insertDesc_perm {α : Type} (key : α → String) (a : α) (l : List α) :
    List.Perm (insertDesc key a l) (a :: l) := by
  induction l with
  | nil => simp [insertDesc]
  | cons b bs ih =>
      by_cases hc : pyLt (key b) (key a) = true
      · simp [insertDesc, hc]
      · simp only [insertDesc, if_neg hc]
        exact (ih.cons b).trans (List.Perm.swap a b bs)

theorem sortDescAux_perm {α : Type} (key : α → String) (l acc : List α) :
    List.Perm (l.foldl (fun acc a => insertDesc key a acc) acc) (acc ++ l) := by
  induction l generalizing acc with
  | nil => simp
  | cons x xs ih =>
      rw [List.foldl_cons]
      refine (ih (insertDesc key x acc)).trans ?_
      refine (((insertDesc_perm key x acc).append_right xs).trans ?_)
      exact List.perm_middle.symm

theorem sortDesc_perm {α : Type} (key : α → String) (l : List α) :
    List.Perm (sortDesc key l) l := by
  simpa using sortDescAux_perm key l []

theorem pairwise_insertDesc {α : Type} (key : α → String) (a : α) (l : List α)
    (h : l.Pairwise (fun x y => pyLt (key x) (key y) = false)) :
    (insertDesc key a l).Pairwise (fun x y => pyLt (key x) (key y) = false) := by
  induction l with
  | nil => simp [insertDesc]
  | cons b bs ih =>
      rcases List.pairwise_cons.mp h with ⟨hb, hbs⟩
      by_cases hc : pyLt (key b) (key a) = true
      · simp only [insertDesc, if_pos hc]
        refine List.pairwise_cons.mpr ⟨?_, h⟩
        intro x hx
        rcases List.mem_cons.mp hx with rfl | hxbs
        · exact pyLt_asymm _ _ hc
        · by_cases ht : pyLt (key a) (key x) = true
          · have hbx : pyLt (key b) (key x) = true := pyLt_trans _ _ _ hc ht
            rw [hb x hxbs] at hbx
            exact Bool.noConfusion hbx
          · simpa using ht
      · simp only [insertDesc, if_neg hc]
        refine List.pairwise_cons.mpr ⟨?_, ih hbs⟩
        intro x hx
        rcases mem_insertDesc key a x bs hx with rfl | hxbs
        · simpa using hc
        · exact hb x hxbs

theorem sortDescAux_pairwise {α : Type} (key : α → String) (l acc : List α)
    (h : acc.Pairwise (fun x y => pyLt (key x) (key y) = false)) :
    (l.foldl (fun acc a => insertDesc key a acc) acc).Pairwise
      (fun x y => pyLt (key x) (key y) = false) := by
  induction l generalizing acc with
  | nil => simpa using h
  | cons x xs ih =>
      rw [List.foldl_cons]
      exact ih _ (pairwise_insertDesc key x acc h)

theorem sortDesc_pairwise {α : Type} (key : α → String) (l : List α) :
    (sortDesc key l).Pairwise (fun x y => pyLt (key x) (key y) = false) :=
  sortDescAux_pairwise key l [] (List.Pairwise.nil)

theorem list_tasks_eq (d : Doc) (status : Option TaskStatus) (limit : Nat) :
    list_tasks d status limit
      = (sortDesc createdAtKey (d.filter (matchB status))).take limit := by
  cases status with
  | none =>
      have hf : d.filter (matchB none) = d :=
        List.filter_eq_self.mpr (fun a _ => rfl)
      rw [list_tasks, hf]
  | some st => rfl

theorem containsSub_self (n : List Char) : containsSub n n :=
  ⟨[], [], by simp⟩

theorem containsSub_append_left (p n h : List Char) (hc : containsSub n h) :
    containsSub n (p ++ h) := by
  obtain ⟨a, b, rfl⟩ := hc
  exact ⟨p ++ a, b, by simp⟩

theorem containsSub_append_right (n h q : List Char) (hc : containsSub n h) :
    containsSub n (h ++ q) := by
  obtain ⟨a, b, rfl⟩ := hc
  exact ⟨a, b ++ q, by simp⟩

theorem containsSub_pyJoin (sep : String) (keys : List String) (k : String)
    (hk : k ∈ keys) : containsSub k.data (pyJoin sep keys).data := by
  induction keys with
  | nil => cases hk
  | cons x rest ih =>
      cases rest with
      | nil =>
          rcases List.mem_cons.mp hk with rfl | h0
          · exact containsSub_self _
          · cases h0
      | cons y rest' =>
          rcases List.mem_cons.mp hk with rfl | hmem
          · refine ⟨[], sep.data ++ (pyJoin sep (y :: rest')).data, ?_⟩
            simp [pyJoin, String.data_append, List.append_assoc]
          · have h2 := containsSub_append_left (x.data ++ sep.data) _ _ (ih hmem)
            simpa [pyJoin, String.data_append, List.append_assoc] using h2

theorem registry_msg_spec (pfx mid : String) (id0 : String) (keys : List String) :
    containsSub id0.data
      (pfx ++ sq ++ id0 ++ sq ++ mid ++ pyJoin bulletSep keys).data
    ∧ ∀ k ∈ keys, containsSub k.data
      (pfx ++ sq ++ id0 ++ sq ++ mid ++ pyJoin bulletSep keys).data := by
  constructor
  · refine ⟨pfx.data ++ sq.data,
      sq.data ++ (mid.data ++ (pyJoin bulletSep keys).data), ?_⟩
    simp [String.data_append, List.append_assoc]
  · intro k hk
    obtain ⟨a, b, hab⟩ := containsSub_pyJoin bulletSep keys k hk
    refine ⟨(pfx ++ sq ++ id0 ++ sq ++ mid).data ++ a, b, ?_⟩
    simp [String.data_append, List.append_assoc, hab]

/-- Claim C1, counterexample: `update_task_status` is called with an extra
keyword field named `id` on a document reached by a single `add_task` from
the empty store; the stored id of the existing task changes from
`task-aabbccdd` to `task-ffffffff`, so the claim that no operation ever
changes the id field of an existing task is false as stated (and the same
mechanism can duplicate an existing id). -/
theorem task_id_changed_by_update_kwarg :
    docIds (persistAfter (QueueOp.addT exReq) []) = [some (JVal.s "task-aabbccdd")]
    ∧ docIds (persistAfter
        (QueueOp.updT "task-aabbccdd" TaskStatus.in_progress
          [("id", JVal.s "task-ffffffff")])
        (persistAfter (QueueOp.addT exReq) []))
      = [some (JVal.s "task-ffffffff")] := by
  constructor
  · rfl
  · rfl

/-- Claim C1 (amended): assuming every id generated by `add_task` is fresh
(the code trusts uuid4 randomness and never checks for a collision) and
`update_task_status` is never passed an extra keyword field named `id`,
the task ids of every reachable document are pairwise distinct, and every
operation preserves the ids of the existing tasks in place, appending at
most the one freshly generated id. -/
theorem task_ids_unique_and_stable :
    (∀ d : Doc, SafeReach d → (docIds d).Nodup)
    ∧ (∀ (op : QueueOp) (d : Doc), FreshOk op d →
        docIds (persistAfter op d) = docIds d ++ newIds op) := by
  have hstep : ∀ (op : QueueOp) (d : Doc), FreshOk op d →
      docIds (persistAfter op d) = docIds d ++ newIds op := by
    intro op d hf
    cases op with
    | addT r => simpa [newIds, persistAfter] using docIds_add d r
    | updT tid st kw =>
        simpa [newIds, persistAfter] using docIds_update d tid st kw hf
    | getT tid => simp [persistAfter, newIds]
    | nextT => simp [persistAfter, newIds]
    | listT s l => simp [persistAfter, newIds]
  refine ⟨?_, hstep⟩
  intro d hreach
  induction hreach with
  | init => simp [docIds]
  | step op d hr hf ih =>
      rw [hstep op d hf]
      cases op with
      | addT r =>
          rw [List.nodup_append]
          refine ⟨ih, List.nodup_singleton _, ?_⟩
          intro a ha hb
          have : a = some (JVal.s (genTaskId r.hex)) := by
            simpa [newIds] using hb
          subst this
          exact hf ha
      | updT tid st kw => simpa [newIds] using ih
      | getT tid => simpa [newIds] using ih
      | nextT => simpa [newIds] using ih
      | listT s l => simpa [newIds] using ih

/-- Witness for C1: the theorem applied to the concrete reachable one-task
document obtained by a fresh `add_task` on the empty store. -/
theorem task_ids_unique_and_stable_witness :
    (docIds (persistAfter (QueueOp.addT exReq) [])).Nodup :=
  task_ids_unique_and_stable.1 _
    (SafeReach.step (QueueOp.addT exReq) [] SafeReach.init
      (by simp [FreshOk, docIds]))

/-- Claim C3: on a document whose first task with the requested id is `t`,
`update_task_status` rewrites exactly that entry to `applyUpdate st kw t`
and keeps every other task untouched; the updated record has the new status
value, carries every merged extra key/value pair, and agrees with `t` on
every field other than `status` and the extras. -/
theorem update_task_status_spec (pre post : List Task) (t : Task) (tid : String)
    (st : TaskStatus) (kw : Dict)
    (hwf : WFDoc (pre ++ t :: post) = true)
    (hpre : ∀ u ∈ pre, dictGet u "id" ≠ some (JVal.s tid))
    (ht : dictGet t "id" = some (JVal.s tid))
    (hn : (dictKeys kw).Nodup) :
    update_task_status (pre ++ t :: post) tid st kw
      = pre ++ applyUpdate st kw t :: post
    ∧ (∀ k, k ≠ "status" → k ∉ dictKeys kw →
        dictGet (applyUpdate st kw t) k = dictGet t k)
    ∧ ("status" ∉ dictKeys kw →
        dictGet (applyUpdate st kw t) "status" = some (JVal.s st.value))
    ∧ (∀ k v, (k, v) ∈ kw → dictGet (applyUpdate st kw t) k = some v) := by
  refine ⟨update_split pre post t tid st kw hpre ht, ?_, ?_, ?_⟩
  · intro k hks hkw
    exact applyUpdate_frame st kw t k hks hkw
  · intro hkw
    exact applyUpdate_status st kw t hkw
  · intro k v hm
    exact applyUpdate_merge st kw t k v hn hm

/-- Witness for C3: a completed-status update with `result="x"` on a concrete
one-task document rewrites exactly that task. -/
theorem update_task_status_spec_witness :
    update_task_status [mkTask exReq] "task-aabbccdd" TaskStatus.completed
        [("result", JVal.s "x")]
      = [applyUpdate TaskStatus.completed [("result", JVal.s "x")] (mkTask exReq)] :=
  (update_task_status_spec [] [] (mkTask exReq) "task-aabbccdd"
    TaskStatus.completed [("result", JVal.s "x")]
    (by decide) (by simp) (by decide) (by decide)).1

/-- Claim C4: `update_task_status` with an id that matches no stored task
returns the document exactly as loaded — no record is created or modified —
and, the function being total, no exception is raised; the unchanged
document is what gets saved back. -/
theorem update_task_status_noop (d : Doc) (tid : String) (st : TaskStatus)
    (kw : Dict) (hwf : WFDoc d = true)
    (h : ∀ u ∈ d, dictGet u "id" ≠ some (JVal.s tid)) :
    update_task_status d tid st kw = d := by
  induction d with
  | nil => rfl
  | cons u ts ih =>
      have hu : ¬ dictGet u "id" = some (JVal.s tid) :=
        h u (List.mem_cons_self u ts)
      have hts : WFDoc ts = true := by
        have h2 := hwf
        simp [WFDoc, List.all_cons] at h2
        simp [WFDoc]
        exact h2.2
      simp [update_task_status, hu,
        ih hts (fun x hx => h x (List.mem_cons_of_mem u hx))]

/-- Witness for C4: updating a nonexistent id on a concrete one-task
document leaves it unchanged. -/
theorem update_task_status_noop_witness :
    update_task_status [mkTask exReq] "task-deadbeef" TaskStatus.completed
        [("result", JVal.s "x")]
      = [mkTask exReq] :=
  update_task_status_noop [mkTask exReq] "task-deadbeef" TaskStatus.completed
    [("result", JVal.s "x")] (by decide) (by decide)

/-- Claim C5, counterexample: immediately after `add_task`, the record
returned by `get_task` does not have `started_at`, `completed_at`, `result`
or `error` absent — all four keys are present, bound to explicit JSON
nulls (`None`), as queue.py lines 52-55 write them. -/
theorem add_then_get_nulls_present :
    get_task (add_task [] exReq) (genTaskId exReq.hex) = some (mkTask exReq)
    ∧ "started_at" ∈ dictKeys (mkTask exReq)
    ∧ "completed_at" ∈ dictKeys (mkTask exReq)
    ∧ "result" ∈ dictKeys (mkTask exReq)
    ∧ "error" ∈ dictKeys (mkTask exReq)
    ∧ dictGet (mkTask exReq) "started_at" = some JVal.null := by
  refine ⟨rfl, ?_, ?_, ?_, ?_, rfl⟩ <;> decide

/-- Claim C5 (amended): `get_task` with the id returned by an immediately
preceding `add_task` (whose generated id is fresh for the document) yields
the new record, whose status is `queued`, whose `created_at` is set to the
sampled timestamp, and whose `started_at`, `completed_at`, `result` and
`error` fields are present with explicit null values. -/
theorem add_then_get_spec (d : Doc) (r : AddReq)
    (hfresh : ∀ u ∈ d, dictGet u "id" ≠ some (JVal.s (genTaskId r.hex))) :
    get_task (add_task d r) (genTaskId r.hex) = some (mkTask r)
    ∧ dictGet (mkTask r) "status" = some (JVal.s "queued")
    ∧ dictGet (mkTask r) "created_at" = some (JVal.s r.now)
    ∧ dictGet (mkTask r) "started_at" = some JVal.null
    ∧ dictGet (mkTask r) "completed_at" = some JVal.null
    ∧ dictGet (mkTask r) "result" = some JVal.null
    ∧ dictGet (mkTask r) "error" = some JVal.null := by
  refine ⟨?_, rfl, rfl, rfl, rfl, rfl, rfl⟩
  rw [add_task]
  induction d with
  | nil => simp [get_task, dictGet_mkTask_id]
  | cons u ts ih =>
      have hu : ¬ dictGet u "id" = some (JVal.s (genTaskId r.hex)) :=
        hfresh u (List.mem_cons_self u ts)
      simp [get_task, hu,
        ih (fun x hx => hfresh x (List.mem_cons_of_mem u hx))]

/-- Witness for C5: the amended theorem applied to an `add_task` on the
empty document. -/
theorem add_then_get_spec_witness :
    get_task (add_task [] exReq2) (genTaskId exReq2.hex) = some (mkTask exReq2) :=
  (add_then_get_spec [] exReq2 (by simp)).1

theorem WFDoc_tail (u : Task) (ts : List Task) (h : WFDoc (u :: ts) = true) :
    WFDoc ts = true := by
  have h2 := h
  simp [WFDoc, List.all_cons] at h2
  simp [WFDoc]
  exact h2.2

/-- Claim C2: `list_tasks` returns at most `limit` entries; each returned
entry is a stored task passing the status filter (every task passes when no
filter is given); the result is ordered by lexicographic string comparison
of `created_at`, descending; and when at most `limit` stored tasks pass the
filter the result is exactly those tasks (up to the sort order). -/
theorem list_tasks_spec (d : Doc) (status : Option TaskStatus) (limit : Nat)
    (hwf : WFDoc d = true) :
    (list_tasks d status limit).length ≤ limit
    ∧ (∀ t ∈ list_tasks d status limit, t ∈ d ∧ matchB status t = true)
    ∧ (list_tasks d status limit).Pairwise
        (fun a b => pyLt (createdAtKey a) (createdAtKey b) = false)
    ∧ ((d.filter (matchB status)).length ≤ limit →
        List.Perm (list_tasks d status limit) (d.filter (matchB status))) := by
  rw [list_tasks_eq]
  refine ⟨?_, ?_, ?_, ?_⟩
  · rw [List.length_take]
    exact min_le_left _ _
  · intro t ht
    have h1 : t ∈ sortDesc createdAtKey (d.filter (matchB status)) :=
      List.take_subset limit _ ht
    have h2 : t ∈ d.filter (matchB status) :=
      (sortDesc_perm createdAtKey _).mem_iff.mp h1
    exact List.mem_filter.mp h2
  · exact (sortDesc_pairwise createdAtKey _).sublist (List.take_sublist limit _)
  · intro hlen
    have hl : (sortDesc createdAtKey (d.filter (matchB status))).length
        = (d.filter (matchB status)).length :=
      (sortDesc_perm createdAtKey _).length_eq
    rw [List.take_of_length_le (by rw [hl]; exact hlen)]
    exact sortDesc_perm createdAtKey _

/-- Witness for C2: the theorem applied to a concrete two-task document with
a queued-status filter and limit 2. -/
theorem list_tasks_spec_witness :
    (list_tasks exDoc (some TaskStatus.queued) 2).length ≤ 2 :=
  (list_tasks_spec exDoc (some TaskStatus.queued) 2 (by decide)).1

/-- Claim C6: `get_next_queued_task` returns `none` on the empty document
and on documents with no queued-status task; when it returns a task, that
task has status `queued`, is a stored record returned unchanged, and every
task before it in document order is not queued; and the operation never
writes the store. -/
theorem get_next_queued_task_spec :
    get_next_queued_task ([] : Doc) = none
    ∧ (∀ d : Doc, WFDoc d = true →
        (∀ u ∈ d, dictGet u "status" ≠ some (JVal.s TaskStatus.queued.value)) →
        get_next_queued_task d = none)
    ∧ (∀ (d : Doc) (t : Task), WFDoc d = true →
        get_next_queued_task d = some t →
          dictGet t "status" = some (JVal.s TaskStatus.queued.value)
          ∧ ∃ pre post, d = pre ++ t :: post
              ∧ ∀ u ∈ pre,
                dictGet u "status" ≠ some (JVal.s TaskStatus.queued.value))
    ∧ (∀ d : Doc, persistAfter QueueOp.nextT d = d) := by
  refine ⟨rfl, ?_, ?_, fun d => rfl⟩
  · intro d hwf hall
    induction d with
    | nil => rfl
    | cons u ts ih =>
        have hu : ¬ dictGet u "status" = some (JVal.s TaskStatus.queued.value) :=
          hall u (List.mem_cons_self u ts)
        simp only [get_next_queued_task, if_neg hu]
        exact ih (WFDoc_tail u ts hwf)
          (fun x hx => hall x (List.mem_cons_of_mem u hx))
  · intro d t hwf hgot
    induction d with
    | nil => simp [get_next_queued_task] at hgot
    | cons u ts ih =>
        by_cases hu : dictGet u "status" = some (JVal.s TaskStatus.queued.value)
        · simp only [get_next_queued_task, if_pos hu] at hgot
          obtain rfl : u = t := Option.some.inj hgot
          exact ⟨hu, [], ts, rfl, by simp⟩
        · simp only [get_next_queued_task, if_neg hu] at hgot
          obtain ⟨hst, pre, post, heq, hpre⟩ := ih (WFDoc_tail u ts hwf) hgot
          refine ⟨hst, u :: pre, post, by rw [heq]; rfl, ?_⟩
          intro x hx
          rcases List.mem_cons.mp hx with rfl | hx2
          · exact hu
          · exact hpre x hx2

/-- Witness for C6: the first-queued characterization applied to a concrete
one-task document whose task is queued. -/
theorem get_next_queued_task_spec_witness :
    dictGet (mkTask exReq) "status" = some (JVal.s TaskStatus.queued.value)
    ∧ ∃ pre post, [mkTask exReq] = pre ++ (mkTask exReq) :: post
        ∧ ∀ u ∈ pre,
          dictGet u "status" ≠ some (JVal.s TaskStatus.queued.value) :=
  get_next_queued_task_spec.2.2.1 [mkTask exReq] (mkTask exReq)
    (by decide) (by decide)

/-- Claim C7: for a uuid hex sample of the shape `uuid4().hex` produces
(32 lowercase hexadecimal characters), the id returned by `add_task` is
non-empty and is `task-` followed by exactly 8 lowercase hexadecimal
characters. -/
theorem add_task_id_shape (hex0 : String)
    (hlen : hex0.data.length = 32)
    (hhex : ∀ c ∈ hex0.data, c ∈ ("0123456789abcdef" : String).data) :
    genTaskId hex0 ≠ ""
    ∧ (genTaskId hex0).data = "task-".data ++ hex0.data.take 8
    ∧ (hex0.data.take 8).length = 8
    ∧ ∀ c ∈ hex0.data.take 8, c ∈ ("0123456789abcdef" : String).data := by
  have hdata : (genTaskId hex0).data = "task-".data ++ hex0.data.take 8 := by
    show ("task-" ++ pyTake8 hex0).data = _
    rw [String.data_append]
    rfl
  refine ⟨?_, hdata, ?_, fun c hc => hhex c (List.take_subset 8 hex0.data hc)⟩
  · intro hempty
    have h0 : (genTaskId hex0).data = [] := by rw [hempty]
    rw [hdata] at h0
    simp at h0
  · rw [List.length_take, hlen]
    decide

/-- Witness for C7: the id shape at a concrete 32-character hex sample. -/
theorem add_task_id_shape_witness :
    (genTaskId hexEx).data = "task-".data ++ hexEx.data.take 8 :=
  (add_task_id_shape hexEx (by decide) (by decide)).2.1

theorem run_adds_eq (rs : List AddReq) :
    ∀ d : Doc, run_adds d rs = d ++ rs.map mkTask := by
  induction rs with
  | nil => intro d; simp [run_adds]
  | cons r rest ih =>
      intro d
      simp only [run_adds]
      rw [ih (add_task d r)]
      simp [add_task]

/-- Claim C8: running N `add_task` calls from the freshly initialized empty
store leaves exactly the N constructed records, in order; constructing a
fresh `TaskQueue` afterwards does not clobber the existing file
(`_ensure_queue_file` only writes when the file is missing), and loading
yields the same N tasks with identical field values. -/
theorem save_load_round_trip (rs : List AddReq) :
    run_adds [] rs = rs.map mkTask
    ∧ load_queue (ensure_queue_file
        (save_queue (run_adds [] rs) (ensure_queue_file none)))
      = some (rs.map mkTask)
    ∧ (rs.map mkTask).length = rs.length := by
  have h2 : run_adds [] rs = rs.map mkTask := by
    simpa using run_adds_eq rs []
  exact ⟨h2, by simp [load_queue, ensure_queue_file, save_queue, h2], by simp⟩

/-- Claim C9: the three read operations save nothing: the persisted document
after `get_task`, `get_next_queued_task` or `list_tasks` is identical (in
content and stored order) to the persisted document before. `list_tasks`
sorts only its in-memory copy of the parsed document, which is discarded. -/
theorem reads_never_write :
    (∀ (d : Doc) (tid : String), persistAfter (QueueOp.getT tid) d = d)
    ∧ (∀ d : Doc, persistAfter QueueOp.nextT d = d)
    ∧ (∀ (d : Doc) (st : Option TaskStatus) (lim : Nat),
        persistAfter (QueueOp.listT st lim) d = d) :=
  ⟨fun _ _ => rfl, fun _ => rfl, fun _ _ _ => rfl⟩

/-- Claim C10: over any loaded registry, `get_agent` returns the stored
record when the id is a key, and otherwise fails with a not-found error
whose message mentions the requested id and enumerates every available
agent id; `get_model` behaves analogously over the model registry. -/
theorem registry_lookup_spec {α β : Type} (agents : List (String × α))
    (models : List (String × β)) (agent_id model_id : String) :
    (∀ v, assocGet agents agent_id = some v →
        get_agent agents agent_id = Except.ok v)
    ∧ (assocGet agents agent_id = none →
        ∃ msg, get_agent agents agent_id = Except.error msg
          ∧ containsSub agent_id.data msg.data
          ∧ ∀ k ∈ agents.map Prod.fst, containsSub k.data msg.data)
    ∧ (∀ v, assocGet models model_id = some v →
        get_model models model_id = Except.ok v)
    ∧ (assocGet models model_id = none →
        ∃ msg, get_model models model_id = Except.error msg
          ∧ containsSub model_id.data msg.data
          ∧ ∀ k ∈ models.map Prod.fst, containsSub k.data msg.data) := by
  refine ⟨?_, ?_, ?_, ?_⟩
  · intro v h
    simp [get_agent, h]
  · intro h
    refine ⟨"Agent " ++ sq ++ agent_id ++ sq
        ++ " not found\n\nAvailable agents:\n  • "
        ++ pyJoin bulletSep (agents.map Prod.fst), ?_, ?_, ?_⟩
    · simp [get_agent, h]
    · exact (registry_msg_spec _ _ _ _).1
    · exact (registry_msg_spec _ _ _ _).2
  · intro v h
    simp [get_model, h]
  · intro h
    refine ⟨"Model " ++ sq ++ model_id ++ sq
        ++ " not found\n\nAvailable models:\n  • "
        ++ pyJoin bulletSep (models.map Prod.fst), ?_, ?_, ?_⟩
    · simp [get_model, h]
    · exact (registry_msg_spec _ _ _ _).1
    · exact (registry_msg_spec _ _ _ _).2

/-- Witness for C10: a failed lookup on a concrete two-agent registry. -/
theorem registry_lookup_spec_witness :
    ∃ msg, get_agent ([("coder", 0), ("reviewer", 1)] : List (String × Nat)) "ghost"
        = Except.error msg
      ∧ containsSub ("ghost" : String).data msg.data
      ∧ ∀ k ∈ ([("coder", 0), ("reviewer", 1)] : List (String × Nat)).map Prod.fst,
          containsSub k.data msg.data :=
  (registry_lookup_spec [("coder", 0), ("reviewer", 1)]
    ([] : List (String × Nat)) "ghost" "m").2.1 (by decide)

end Coordinator
